import Mathlib

/-!
Verification of the eigenvalue-analysis engine `welib/system/eva.py`.

The numeric code is shallowly embedded over `ℚ`, `ℝ` and `ℂ`:

* The dense eigensolver `scipy.linalg.eig` is an external oracle.  Its raw
  output `(D, Q)` (eigenvalues and eigenvector columns) is passed to the
  embedded functions as explicit arguments, and theorems that need the
  eigen-equations take them as hypotheses.
* Floating-point arithmetic is idealised as exact real/complex arithmetic,
  so residual-tolerance statements in the specification become exact
  equalities.
* NumPy's `argsort`-then-gather idiom is modelled by sorting the list of
  per-mode tuples with `List.insertionSort` keyed on the same quantity, and
  `np.argsort` on a `Fin`-indexed tuple by `Tuple.sort`.
* Raised Python exceptions are modelled with `Except` / explicit error
  values.
-/

namespace Eva

/-! ### `eigA` dimension handling (`eva.py` lines 140-151)

`eigA(A, nq, nq1, ...)` first resolves the second-order count `nq` and the
first-order count `nq1` from the optional arguments, then validates them
against the matrix dimension `n`:

    if nq is None:
        if nq1 is None:
            nq1=0
        nq = int((n-nq1)/2)
    else:
        nq1 = n-2*nq
    if n!=2*nq+nq1 or nq1<0:
        raise Exception(...)

Python's `int((n-nq1)/2)` truncates the true quotient toward zero, which is
`Int.tdiv`.  Note that when `nq` is supplied, any supplied `nq1` is
overwritten by `n - 2*nq`.
-/

/-- Resolution of the optional `nq`/`nq1` arguments of `eigA`. -/
def eigAInfer (n : ℤ) (nq nq1 : Option ℤ) : ℤ × ℤ :=
  match nq with
  | none => ((n - nq1.getD 0).tdiv 2, nq1.getD 0)
  | some q => (q, n - 2 * q)

/-- The dimension check of `eigA`: `Except.error ()` models the raised
`Exception('Number of 1st and second order dofs should match ...')`,
`Except.ok (nq, nq1)` the resolved counts used by the rest of `eigA`. -/
def eigACheck (n : ℤ) (nq nq1 : Option ℤ) : Except Unit (ℤ × ℤ) :=
  let p := eigAInfer n nq nq1
  if n ≠ 2 * p.1 + p.2 ∨ p.2 < 0 then Except.error () else Except.ok p

/-! ### `polyeig` input validation and companion-block shapes
(`eva.py` lines 38-58)

`polyeig(*A)` receives `k = len(A)` square `n×n` matrices, rejects `k ≤ 0`,
sets `l = k - 1` and then assembles

    C = np.block([[np.zeros((n*(l-1),n)), np.eye(n*(l-1))],
                  [-np.column_stack( A[0:-1])]])

With a single matrix (`k = 1`, so `l = 0`) this requests
`np.zeros((n*(-1), n))`, which NumPy rejects for `n > 0`
("negative dimensions are not allowed"); for `n = 0` the zeros block is
legal but `np.column_stack(A[0:-1])` receives the empty tuple and raises
("need at least one array to concatenate").  Either way no result is
returned. -/

/-- The ways `polyeig` can abort before reaching the dense solver. -/
inductive PolyeigErr : Type
  | noMatrix     -- `Exception('Provide at least one matrix')`
  | negativeDim  -- NumPy `ValueError` from `np.zeros((n*(l-1), n))`
  | emptyStack   -- NumPy `ValueError` from `np.column_stack(())`
  deriving DecidableEq

/-- Shape-level semantics of `polyeig` applied to `k` square `n×n`
matrices: the explicit length validation followed by the companion-form
block assembly.  `Except.ok ()` means control reaches the dense solver. -/
def polyeigDims (k n : ℕ) : Except PolyeigErr Unit :=
  if k ≤ 0 then Except.error PolyeigErr.noMatrix
  else
    let l : ℤ := (k : ℤ) - 1
    if (n : ℤ) * (l - 1) < 0 then Except.error PolyeigErr.negativeDim
    else if l = 0 then Except.error PolyeigErr.emptyStack
    else Except.ok ()

/-! ### `eigMCK`, method `'diag_beta'` (`eva.py` lines 190-198)

The damping matrix is projected using the eigenvector matrix `Q` returned
by `eig(K, M, sort=False)`:

    betaMat = np.dot(Q,C).dot(Q.T)

i.e. `Q * C * Qᵀ`.  The definition is polymorphic in the ring so that the
concrete counter-witnesses can be evaluated over `ℤ` by `decide`. -/

/-- The modal damping projection exactly as `eigMCK` computes it:
`np.dot(Q,C).dot(Q.T) = Q * C * Qᵀ`. -/
def betaMat {n : ℕ} {R : Type} [CommRing R] (Q C : Matrix (Fin n) (Fin n) R) :
    Matrix (Fin n) (Fin n) R :=
  Q * C * Q.transpose

/-! ### `eigA` eigenvalue post-processing (`eva.py` lines 152-182)

`eigA` obtains the complex eigenvalues `v` and eigenvector columns `Q` of
the state matrix from `eig(A, sort=False)`; the list `ev` below carries the
(eigenvalue, eigenvector column) pairs in the solver's order, with the
column type `V` abstract (the `np.delete` row-dropping happens before this
stage and does not affect eigenvalues or ordering). -/

/-- Mode selection in `eigA` (lines 158-161): the boolean mask
`Ipos = np.imag(v)>0` applied jointly to eigenvalues and columns. -/
noncomputable def eigASelect {V : Type} (ev : List (ℂ × V)) : List (ℂ × V) :=
  ev.filter fun m => decide (0 < m.1.im)

/-- Per-mode quantities of `eigA` (lines 163-167): for an eigenvalue `λ`
with column `q`, the output tuple `(freq_d, zeta, q, freq_0)` computed via
`omega_0 = |λ|`, `freq_d = Im λ/(2π)`, `zeta = -Re λ/omega_0`,
`freq_0 = omega_0/(2π)`. -/
noncomputable def eigAMode {V : Type} (m : ℂ × V) : ℝ × ℝ × V × ℝ :=
  (m.1.im / (2 * Real.pi), - m.1.re / Complex.abs m.1, m.2,
    Complex.abs m.1 / (2 * Real.pi))

/-- The `eigA` post-processing (lines 158-174): retain eigenvalues with
positive imaginary part, compute the per-mode quantities, and sort all four
outputs together ascending by `freq_0` (`I = np.argsort(freq_0)`). -/
noncomputable def eigAModes {V : Type} (ev : List (ℂ × V)) :
    List (ℝ × ℝ × V × ℝ) :=
  ((eigASelect ev).map eigAMode).insertionSort fun a b => a.2.2.2 ≤ b.2.2.2

/-! ### `eigMCK`, method `'full_matrix'`, and the shared tail
(`eva.py` lines 199-222)

`Q, e = polyeig(K, C, M)` supplies the eigenvalue/eigenvector-column pairs
`ev`; the code then computes `zeta = -Re e/|e|` and `freq_d = Im e/(2π)`
for every pair, keeps those with `freq_d > 1e-08`, sorts by `freq_d` when
`sort=True`, and finally recomputes `freq_0 = freq_d/sqrt(1 - zeta**2)`.
The returned tuples are `(freq_d, zeta, q, freq_0)`. -/

/-- `eigMCK` post-processing for method `'full_matrix'` (lines 203-222). -/
noncomputable def eigMCKPost {V : Type} (ev : List (ℂ × V)) (sort : Bool) :
    List (ℝ × ℝ × V × ℝ) :=
  let ms := (ev.map fun m =>
      (m.1.im / (2 * Real.pi), - m.1.re / Complex.abs m.1, m.2)).filter
        fun m => decide ((1e-8 : ℝ) < m.1)
  let ms := if sort then ms.insertionSort fun a b => a.1 ≤ b.1 else ms
  ms.map fun m => (m.1, m.2.1, m.2.2, m.1 / Real.sqrt (1 - m.2.1 ^ 2))

end Eva

instance {V : Type} : IsTotal (ℝ × ℝ × V × ℝ) fun a b => a.2.2.2 ≤ b.2.2.2 :=
  ⟨fun _ _ => le_total _ _⟩

instance {V : Type} : IsTrans (ℝ × ℝ × V × ℝ) fun a b => a.2.2.2 ≤ b.2.2.2 :=
  ⟨fun _ _ _ => le_trans⟩

instance {V : Type} : IsTotal (ℝ × ℝ × V) fun a b => a.1 ≤ b.1 :=
  ⟨fun _ _ => le_total _ _⟩

instance {V : Type} : IsTrans (ℝ × ℝ × V) fun a b => a.1 ≤ b.1 :=
  ⟨fun _ _ _ => le_trans⟩

/-! ## Theorems for the claims -/

/-- **C3, counterexample.** Calling `eigA` on a 5×5 matrix with `nq = 2` and
`nq1` omitted does *not* raise the dimension error: since `nq` is supplied,
the code recomputes `nq1 = n - 2*nq = 1` (the `nq1 = 0` default applies only
when `nq` is also omitted), and `5 = 2*2 + 1` passes the check. -/
theorem eigACheck_five_two_succeeds :
    Eva.eigACheck 5 (some 2) none = Except.ok (2, 1) := rfl

/-- **C3, amended.** The dimension handling of `eigA`: when `nq` is
supplied, any supplied `nq1` is ignored and recomputed as `n - 2*nq`, and
the call fails precisely when `n < 2*nq`; in particular a 5×5 matrix with
`nq = 2` succeeds with inferred `nq1 = 1`.  Only when `nq` is omitted does
`nq1` default to `0` (if also omitted), with `nq` inferred as the
toward-zero truncation of `(n - nq1)/2`; the call then fails precisely
when `n ≠ 2*nq + nq1` or `nq1 < 0` for the resolved values — with both
omitted, precisely on odd `n`. -/
theorem eigACheck_dim_rules :
    (∀ (n q : ℤ) (o : Option ℤ),
        Eva.eigACheck n (some q) o = Eva.eigACheck n (some q) none) ∧
    (∀ (n q : ℤ) (o : Option ℤ),
        Eva.eigACheck n (some q) o = Except.error () ↔ n < 2 * q) ∧
    (Eva.eigACheck 5 (some 2) none = Except.ok (2, 1)) ∧
    (∀ (n : ℤ) (o : Option ℤ),
        Eva.eigACheck n none o = Except.error () ↔
          (n ≠ 2 * ((n - o.getD 0).tdiv 2) + o.getD 0 ∨ o.getD 0 < 0)) ∧
    (∀ m : ℕ, Eva.eigACheck (2 * (m : ℤ)) none none = Except.ok ((m : ℤ), 0)) ∧
    (∀ m : ℕ, Eva.eigACheck (2 * (m : ℤ) + 1) none none = Except.error ()) := by
  refine ⟨fun n q o => rfl, fun n q o => ?_, rfl, fun n o => ?_, fun m => ?_,
    fun m => ?_⟩
  · simp only [Eva.eigACheck, Eva.eigAInfer]
    split_ifs with h
    · simpa using by omega
    · exact iff_of_false (fun hc => by cases hc) (by omega)
  · simp only [Eva.eigACheck, Eva.eigAInfer]
    split_ifs with h
    · exact iff_of_true rfl h
    · exact iff_of_false (fun hc => by cases hc) h
  · have h2 : ((2 * (m : ℤ) - (none : Option ℤ).getD 0).tdiv 2) = (m : ℤ) := by
      simpa using Int.mul_tdiv_cancel_left (m : ℤ) (by norm_num)
    simp only [Eva.eigACheck, Eva.eigAInfer, h2]
    norm_num
  · have h2 : ((2 * (m : ℤ) + 1 - (none : Option ℤ).getD 0).tdiv 2) = (m : ℤ) := by
      have : (2 * (m : ℤ) + 1 - (none : Option ℤ).getD 0) = 2 * (m : ℤ) + 1 := by simp
      rw [this, Int.tdiv_eq_ediv (by positivity) (by norm_num)]
      omega
    simp only [Eva.eigACheck, Eva.eigAInfer, h2]
    have : 2 * (m : ℤ) + 1 ≠ 2 * (m : ℤ) + 0 := by omega
    simp [this]

/-- **C9.** `polyeig` called with exactly one matrix never reaches the
solver: the explicit validation only rejects an empty sequence, but the
companion assembly of the single-matrix case fails — for `n > 0` because the
zero block has the negative dimension `n*(-1)`, and for `n = 0` because
`np.column_stack` receives no arrays.  With at least two matrices the
assembly always succeeds, so the actual success precondition is `p ≥ 1`. -/
theorem polyeigDims_single_fails :
    (∀ n : ℕ, ∃ err, Eva.polyeigDims 1 n = Except.error err) ∧
    (∀ n : ℕ, 0 < n →
        Eva.polyeigDims 1 n = Except.error Eva.PolyeigErr.negativeDim) ∧
    (∀ k n : ℕ, 2 ≤ k → Eva.polyeigDims k n = Except.ok ()) ∧
    (∀ n : ℕ, Eva.polyeigDims 0 n = Except.error Eva.PolyeigErr.noMatrix) := by
  have hone : ∀ n : ℕ, 0 < n →
      Eva.polyeigDims 1 n = Except.error Eva.PolyeigErr.negativeDim := by
    intro n hn
    have h2 : (n : ℤ) * (((1 : ℕ) : ℤ) - 1 - 1) < 0 := by
      push_cast
      have : (0 : ℤ) < (n : ℤ) := by exact_mod_cast hn
      nlinarith
    simp only [Eva.polyeigDims]
    rw [if_neg (by norm_num), if_pos h2]
  refine ⟨fun n => ?_, hone, fun k n hk => ?_, fun n => rfl⟩
  · rcases Nat.eq_zero_or_pos n with h | h
    · exact ⟨Eva.PolyeigErr.emptyStack, by subst h; rfl⟩
    · exact ⟨Eva.PolyeigErr.negativeDim, hone n h⟩
  · simp only [Eva.polyeigDims]
    have h1 : ¬ k ≤ 0 := by omega
    have h2 : ¬ ((n : ℤ) * ((k : ℤ) - 1 - 1) < 0) := by
      have hn : (0 : ℤ) ≤ (n : ℤ) := Int.ofNat_nonneg n
      have hk2 : (0 : ℤ) ≤ (k : ℤ) - 1 - 1 := by omega
      push_neg
      positivity
    have h3 : ((k : ℤ) - 1) ≠ 0 := by omega
    simp [h1, h2, h3]

/-- **C9, witness.** Concrete instances of `polyeigDims_single_fails`:
one 3×3 matrix fails on the negative block dimension, three 2×2 matrices
(the quadratic case `K, C, M`) reach the solver. -/
theorem polyeigDims_single_fails_witness :
    Eva.polyeigDims 1 3 = Except.error Eva.PolyeigErr.negativeDim ∧
    Eva.polyeigDims 3 2 = Except.ok () :=
  ⟨polyeigDims_single_fails.2.1 3 (by norm_num),
   polyeigDims_single_fails.2.2.1 3 2 (by norm_num)⟩

/-- **C2.** Evidence that `eigMCK`'s `'diag_beta'` branch contradicts its
own stated assumption.  For the mechanical system `M = [[1,-1],[-1,2]]`,
`K = [[1,-1],[-1,5]]`, the matrix `Q = [[1,1],[0,1]]` with `Λ = diag(1,4)`
is exactly the mass-normalised eigensolution that `eig(K, M, sort=False)`
specifies (first two conjuncts), and `C = M + K` is Rayleigh damping.  The
code's projection `betaMat = np.dot(Q,C).dot(Q.T) = Q·C·Qᵀ` gives
`[[5,5],[5,7]]` — not a diagonal matrix, although the branch is commented
"assuming diagonal beta matrix (Rayleigh Damping)" — whereas the modal
projection `Qᵀ·C·Q` of the claim is the diagonal `diag(2,5)`; the two
diagonals that feed the damping ratios differ. -/
theorem eigMCK_diagBeta_projection_bug :
    ((!![1, 1; 0, 1] : Matrix (Fin 2) (Fin 2) ℤ).transpose * !![1, -1; -1, 2] *
        !![1, 1; 0, 1] = 1) ∧
    ((!![1, -1; -1, 5] : Matrix (Fin 2) (Fin 2) ℤ) * !![1, 1; 0, 1] =
        !![1, -1; -1, 2] * !![1, 1; 0, 1] * Matrix.diagonal ![1, 4]) ∧
    ((!![2, -2; -2, 7] : Matrix (Fin 2) (Fin 2) ℤ) =
        !![1, -1; -1, 2] + !![1, -1; -1, 5]) ∧
    (Eva.betaMat (!![1, 1; 0, 1] : Matrix (Fin 2) (Fin 2) ℤ) !![2, -2; -2, 7] =
        !![5, 5; 5, 7]) ∧
    ((!![1, 1; 0, 1] : Matrix (Fin 2) (Fin 2) ℤ).transpose * !![2, -2; -2, 7] *
        !![1, 1; 0, 1] = !![2, 0; 0, 5]) ∧
    Matrix.diag
        (Eva.betaMat (!![1, 1; 0, 1] : Matrix (Fin 2) (Fin 2) ℤ) !![2, -2; -2, 7]) ≠
      Matrix.diag
        ((!![1, 1; 0, 1] : Matrix (Fin 2) (Fin 2) ℤ).transpose * !![2, -2; -2, 7] *
          !![1, 1; 0, 1]) := by
  refine ⟨by decide, by decide, by decide, by decide, by decide, by decide⟩

/-- Helper for C5: over a list made of one representative per strictly
complex conjugate pair, exactly one member of each pair has positive
imaginary part. -/
theorem countP_posIm_pairs (ps : List ℂ) (hps : ∀ z ∈ ps, z.im ≠ 0) :
    (ps.countP fun z => decide (0 < z.im)) +
      ((ps.map (starRingEnd ℂ)).countP fun z => decide (0 < z.im)) =
      ps.length := by
  induction ps with
  | nil => simp
  | cons z l ih =>
    have hz : z.im ≠ 0 := hps z (List.mem_cons_self z l)
    have hl : ∀ w ∈ l, w.im ≠ 0 := fun w hw => hps w (List.mem_cons_of_mem z hw)
    have hrec := ih hl
    simp only [List.map_cons, List.countP_cons, List.length_cons]
    rcases lt_or_gt_of_ne hz with h | h
    · have h1 : (decide (0 < z.im)) = false := by
        simp only [decide_eq_false_iff_not, not_lt]
        linarith
      have h2 : (decide (0 < ((starRingEnd ℂ) z).im)) = true := by
        simp only [decide_eq_true_eq, Complex.conj_im]
        linarith
      rw [h1, h2]
      simp only [if_true, if_false, Bool.false_eq_true, reduceIte]
      omega
    · have h1 : (decide (0 < z.im)) = true := by
        simp only [decide_eq_true_eq]
        linarith
      have h2 : (decide (0 < ((starRingEnd ℂ) z).im)) = false := by
        simp only [decide_eq_false_iff_not, not_lt, Complex.conj_im]
        linarith
      rw [h1, h2]
      simp only [if_true, if_false, Bool.false_eq_true, reduceIte]
      omega

/-- **C5.** `eigA` retains exactly the eigenvalues with strictly positive
imaginary part: if the eigenvalue list of the state matrix is (a
permutation of) `k` strictly-complex conjugate pairs `ps ++ map conj ps`
together with real eigenvalues `rs`, then the retained-mode list has
exactly `k` entries, and membership in it is exactly membership in the
input with positive imaginary part. -/
theorem eigA_conjugate_collapse {V : Type} (ev : List (ℂ × V)) (ps rs : List ℂ)
    (hperm : (ev.map Prod.fst).Perm (ps ++ ps.map (starRingEnd ℂ) ++ rs))
    (hps : ∀ z ∈ ps, z.im ≠ 0) (hrs : ∀ z ∈ rs, z.im = 0) :
    (∀ m, m ∈ Eva.eigASelect ev ↔ m ∈ ev ∧ 0 < m.1.im) ∧
    (Eva.eigASelect ev).length = ps.length ∧
    (Eva.eigAModes ev).length = ps.length := by
  have hmem : ∀ m, m ∈ Eva.eigASelect ev ↔ m ∈ ev ∧ 0 < m.1.im := by
    intro m
    simp [Eva.eigASelect, List.mem_filter]
  have hlen : (Eva.eigASelect ev).length = ps.length := by
    have h1 : (Eva.eigASelect ev).length =
        ev.countP fun m => decide (0 < m.1.im) := by
      rw [Eva.eigASelect, ← List.countP_eq_length_filter]
    have h2 : (ev.countP fun m => decide (0 < m.1.im)) =
        (ev.map Prod.fst).countP fun z => decide (0 < z.im) := by
      rw [List.countP_map]
      rfl
    have h3 : ((ev.map Prod.fst).countP fun z => decide (0 < z.im)) =
        ((ps ++ ps.map (starRingEnd ℂ) ++ rs).countP fun z =>
          decide (0 < z.im)) := hperm.countP_eq _
    have h4 : (rs.countP fun z => decide (0 < z.im)) = 0 := by
      rw [List.countP_eq_zero]
      intro z hz
      simpa using le_of_eq (hrs z hz)
    rw [h1, h2, h3, List.countP_append, List.countP_append, h4,
      countP_posIm_pairs ps hps]
    omega
  refine ⟨hmem, hlen, ?_⟩
  rw [Eva.eigAModes, ← hlen]
  calc (((Eva.eigASelect ev).map Eva.eigAMode).insertionSort
          fun a b => a.2.2.2 ≤ b.2.2.2).length
      = ((Eva.eigASelect ev).map Eva.eigAMode).length :=
        (List.perm_insertionSort _ _).length_eq
    _ = (Eva.eigASelect ev).length := List.length_map _ _

/-- **C5, witness.** A 3×3 state matrix spectrum with one conjugate pair
`±i` and one real eigenvalue `0` yields exactly one retained mode. -/
theorem eigA_conjugate_collapse_witness :
    ((([(Complex.I, 0), (-Complex.I, 1), (0, 2)] :
        List (ℂ × ℕ)).map Prod.fst).Perm
      ([Complex.I] ++ [Complex.I].map (starRingEnd ℂ) ++ [0])) ∧
    (Eva.eigASelect ([(Complex.I, 0), (-Complex.I, 1), (0, 2)] :
        List (ℂ × ℕ))).length = 1 := by
  have hperm : ((([(Complex.I, 0), (-Complex.I, 1), (0, 2)] :
      List (ℂ × ℕ)).map Prod.fst).Perm
        ([Complex.I] ++ [Complex.I].map (starRingEnd ℂ) ++ [0])) := by
    simp [Complex.conj_I]
  refine ⟨hperm, ?_⟩
  have := eigA_conjugate_collapse ([(Complex.I, 0), (-Complex.I, 1), (0, 2)] :
      List (ℂ × ℕ)) [Complex.I] [0] hperm
      (by intro z hz; simp at hz; subst hz; simp)
      (by intro z hz; simp at hz; subst hz; simp)
  simpa using this.2.1

/-- **C7.** Every mode returned by `eigA` carries the quantities computed
from its retained eigenvalue `λ` as `omega_0 = |λ|`, `freq_d = Im λ/(2π)`,
`zeta = -Re λ/|λ|`, `freq_0 = |λ|/(2π)`, and the four outputs are sorted
together in ascending order of natural frequency `freq_0`. -/
theorem eigA_mode_quantities {V : Type} (ev : List (ℂ × V)) :
    (∀ m ∈ Eva.eigAModes ev, ∃ p, p ∈ ev ∧ 0 < p.1.im ∧
        m = (p.1.im / (2 * Real.pi), - p.1.re / Complex.abs p.1, p.2,
              Complex.abs p.1 / (2 * Real.pi))) ∧
    ((Eva.eigAModes ev).map fun m => m.2.2.2).Sorted (· ≤ ·) ∧
    (Eva.eigAModes ev).Perm ((Eva.eigASelect ev).map Eva.eigAMode) := by
  refine ⟨?_, ?_, List.perm_insertionSort _ _⟩
  · intro m hm
    have hm2 : m ∈ (Eva.eigASelect ev).map Eva.eigAMode :=
      (List.perm_insertionSort _ _).mem_iff.mp hm
    rcases List.mem_map.mp hm2 with ⟨p, hp, hpm⟩
    rcases List.mem_filter.mp hp with ⟨hpev, hppos⟩
    exact ⟨p, hpev, by simpa using hppos, hpm.symm⟩
  · have hs := List.sorted_insertionSort
      (fun a b : ℝ × ℝ × V × ℝ => a.2.2.2 ≤ b.2.2.2)
      ((Eva.eigASelect ev).map Eva.eigAMode)
    exact (List.pairwise_map).mpr hs

/-- **C4, amended.** With `sort=True`, the sequence that `eigMCK` sorts —
the damped frequencies — is non-decreasing in the returned list, and
sorting only permutes the returned modes. -/
theorem eigMCK_sorted_by_freqd {V : Type} (ev : List (ℂ × V)) :
    ((Eva.eigMCKPost ev true).map fun m => m.1).Sorted (· ≤ ·) ∧
    (Eva.eigMCKPost ev true).Perm (Eva.eigMCKPost ev false) := by
  constructor
  · rw [Eva.eigMCKPost, List.map_map]
    have hs := List.sorted_insertionSort
      (fun a b : ℝ × ℝ × V => a.1 ≤ b.1)
      ((ev.map fun m =>
        (m.1.im / (2 * Real.pi), - m.1.re / Complex.abs m.1, m.2)).filter
          fun m => decide ((1e-8 : ℝ) < m.1))
    simp only [if_true]
    exact (List.pairwise_map).mpr hs
  · rw [Eva.eigMCKPost, Eva.eigMCKPost]
    simp only [if_true, if_false]
    exact (List.perm_insertionSort _ _).map _

namespace Eva

/-! ### `polyeig` companion-form assembly (`eva.py` lines 46-72)

With `p+1` input matrices `A 0, …, A (p)` of size `n×n` and `p = l+1 ≥ 1`,
the code builds the `(n·p)×(n·p)` pair

    C = np.block([[np.zeros((n*(p-1),n)), np.eye(n*(p-1))],
                  [-np.column_stack( A[0:-1])]])
    D = np.block([[np.eye(n*(p-1)), np.zeros((n*(p-1), n))],
                  [np.zeros((n, n*(p-1))), A[-1]]])

indexes `Fin (l+1) × Fin n` below are (block row, offset): block rows
`0 … l-1` hold the shifted identity `[0 | I]`, the last block row holds
`-[A_0 … A_{p-1}]`; `D` is block-diagonal with identities and `A_p`. -/

/-- Companion matrix `C` of `polyeig` (lines 49-52). -/
noncomputable def polyeigC (l n : ℕ) (A : Fin (l + 2) → Matrix (Fin n) (Fin n) ℂ) :
    Matrix (Fin (l + 1) × Fin n) (Fin (l + 1) × Fin n) ℂ :=
  Matrix.of fun p q =>
    if (p.1 : ℕ) < l then
      (if (q.1 : ℕ) = (p.1 : ℕ) + 1 ∧ q.2 = p.2 then 1 else 0)
    else
      - A q.1.castSucc p.2 q.2

/-- Block-diagonal matrix `D` of `polyeig` (lines 53-56). -/
noncomputable def polyeigD (l n : ℕ) (A : Fin (l + 2) → Matrix (Fin n) (Fin n) ℂ) :
    Matrix (Fin (l + 1) × Fin n) (Fin (l + 1) × Fin n) ℂ :=
  Matrix.of fun p q =>
    if (p.1 : ℕ) < l then
      (if p.1 = q.1 ∧ p.2 = q.2 then 1 else 0)
    else
      (if (q.1 : ℕ) < l then 0 else A (Fin.last (l + 1)) p.2 q.2)

/-- Truncation of a companion eigenvector to its first `n` rows
(`X = X[:n,:]`, line 61): block row `0`. -/
def polyeigTrunc {l n : ℕ} (v : Fin (l + 1) × Fin n → ℂ) : Fin n → ℂ :=
  fun r => v (0, r)

/-- Maximum absolute entry of a column, `np.max(np.abs(X), axis=0)`
(line 70). -/
noncomputable def polyeigMaxAbs {n : ℕ} (x : Fin n → ℂ) : ℝ :=
  ((Finset.univ.sup fun r => ‖x r‖₊ : NNReal) : ℝ)

/-- Column scaling `X /= np.tile(np.max(np.abs(X),axis=0), (n,1))`
(line 70). -/
noncomputable def polyeigScale {n : ℕ} (x : Fin n → ℂ) : Fin n → ℂ :=
  fun r => x r / (polyeigMaxAbs x : ℂ)

end Eva

/-- Helper: a finite sum of square matrices applied to a vector. -/
theorem sum_mulVec_univ {m n : ℕ} (M : Fin m → Matrix (Fin n) (Fin n) ℂ)
    (v : Fin n → ℂ) :
    (∑ i, M i).mulVec v = ∑ i, (M i).mulVec v := by
  funext r
  simp only [Matrix.mulVec, Matrix.dotProduct, Finset.sum_apply,
    Matrix.sum_apply, Finset.sum_mul]
  rw [Finset.sum_comm]

/-- **C1.** Companion-form correctness of `polyeig`: for `p = l+1 ≥ 1`
matrices of common square shape, every generalized eigenpair `(e, v)` of
the companion pair `(C, D)` built by `polyeig` yields, after the code's
truncation to the first `n` rows and column scaling by the maximum absolute
entry, an exact solution `x` of the matrix polynomial equation
`(A₀ + e·A₁ + … + eᵖ·A_p)·x = 0` (the idealised form of the
residual-below-tolerance statement). -/
theorem polyeig_residual (l n : ℕ) (A : Fin (l + 2) → Matrix (Fin n) (Fin n) ℂ)
    (e : ℂ) (v : Fin (l + 1) × Fin n → ℂ)
    (hv : (Eva.polyeigC l n A).mulVec v = e • (Eva.polyeigD l n A).mulVec v) :
    (∑ i : Fin (l + 2), e ^ (i : ℕ) • A i).mulVec
      (Eva.polyeigScale (Eva.polyeigTrunc v)) = 0 := by
  classical
  -- Row equations of `C` below the last block row: the shifted identity.
  have hCrow : ∀ (i : Fin l) (r : Fin n),
      (Eva.polyeigC l n A).mulVec v (i.castSucc, r) = v (i.succ, r) := by
    intro i r
    have hi : ((i.castSucc : Fin (l + 1)) : ℕ) < l := by
      simpa using i.isLt
    have hme : ∀ q : Fin (l + 1) × Fin n,
        Eva.polyeigC l n A (i.castSucc, r) q * v q
          = if q = (i.succ, r) then v q else 0 := by
      intro q
      by_cases hq2 : q = (i.succ, r)
      · subst hq2
        simp only [Eva.polyeigC, Matrix.of_apply, if_pos hi]
        simp
      · rw [if_neg hq2]
        simp only [Eva.polyeigC, Matrix.of_apply, if_pos hi]
        rw [if_neg fun hc =>
          hq2 (Prod.ext (Fin.ext (by simpa using hc.1)) hc.2), zero_mul]
    calc (Eva.polyeigC l n A).mulVec v (i.castSucc, r)
        = ∑ q : Fin (l + 1) × Fin n,
            Eva.polyeigC l n A (i.castSucc, r) q * v q := rfl
      _ = ∑ q : Fin (l + 1) × Fin n,
            if q = (i.succ, r) then v q else 0 :=
          Finset.sum_congr rfl fun q _ => hme q
      _ = v (i.succ, r) := by
          rw [Finset.sum_ite_eq' Finset.univ]
          simp
  -- Row equations of `D` below the last block row: the identity.
  have hDrow : ∀ (i : Fin l) (r : Fin n),
      (Eva.polyeigD l n A).mulVec v (i.castSucc, r) = v (i.castSucc, r) := by
    intro i r
    have hi : ((i.castSucc : Fin (l + 1)) : ℕ) < l := by
      simpa using i.isLt
    have hme : ∀ q : Fin (l + 1) × Fin n,
        Eva.polyeigD l n A (i.castSucc, r) q * v q
          = if q = (i.castSucc, r) then v q else 0 := by
      intro q
      by_cases hq2 : q = (i.castSucc, r)
      · subst hq2
        simp only [Eva.polyeigD, Matrix.of_apply, if_pos hi]
        simp
      · rw [if_neg hq2]
        simp only [Eva.polyeigD, Matrix.of_apply, if_pos hi]
        rw [if_neg fun hc =>
          hq2 (Prod.ext hc.1.symm hc.2.symm), zero_mul]
    calc (Eva.polyeigD l n A).mulVec v (i.castSucc, r)
        = ∑ q : Fin (l + 1) × Fin n,
            Eva.polyeigD l n A (i.castSucc, r) q * v q := rfl
      _ = ∑ q : Fin (l + 1) × Fin n,
            if q = (i.castSucc, r) then v q else 0 :=
          Finset.sum_congr rfl fun q _ => hme q
      _ = v (i.castSucc, r) := by
          rw [Finset.sum_ite_eq' Finset.univ]
          simp
  -- Chaining the shifted-identity rows: block `i` is `e^i` times block `0`.
  have hstep : ∀ (i : Fin l) (r : Fin n),
      v (i.succ, r) = e * v (i.castSucc, r) := by
    intro i r
    have h1 := congrFun hv (i.castSucc, r)
    rw [hCrow i r, Pi.smul_apply, smul_eq_mul, hDrow i r] at h1
    exact h1
  have hblock : ∀ (i : Fin (l + 1)) (r : Fin n),
      v (i, r) = e ^ (i : ℕ) * v (0, r) := by
    intro i
    induction i using Fin.induction with
    | zero => intro r; simp
    | succ i ih =>
      intro r
      rw [hstep i r, ih r, Fin.val_succ, Fin.coe_castSucc, pow_succ]
      ring
  -- The last block row of `C` and `D`.
  have hClast : ∀ r : Fin n,
      (Eva.polyeigC l n A).mulVec v (Fin.last l, r)
        = - ∑ j : Fin (l + 1), ∑ c : Fin n, A j.castSucc r c * v (j, c) := by
    intro r
    have hil : ¬ ((Fin.last l : Fin (l + 1)) : ℕ) < l := by simp
    calc (Eva.polyeigC l n A).mulVec v (Fin.last l, r)
        = ∑ q : Fin (l + 1) × Fin n,
            Eva.polyeigC l n A (Fin.last l, r) q * v q := rfl
      _ = - ∑ j : Fin (l + 1), ∑ c : Fin n, A j.castSucc r c * v (j, c) := by
          simp only [Eva.polyeigC, Matrix.of_apply, if_neg hil,
            Fintype.sum_prod_type, neg_mul, Finset.sum_neg_distrib]
  have hDlast : ∀ r : Fin n,
      (Eva.polyeigD l n A).mulVec v (Fin.last l, r)
        = ∑ c : Fin n, A (Fin.last (l + 1)) r c * v (Fin.last l, c) := by
    intro r
    have hil : ¬ ((Fin.last l : Fin (l + 1)) : ℕ) < l := by simp
    have h0 : (Eva.polyeigD l n A).mulVec v (Fin.last l, r)
        = ∑ j : Fin (l + 1), ∑ c : Fin n,
            Eva.polyeigD l n A (Fin.last l, r) (j, c) * v (j, c) := by
      rw [show (Eva.polyeigD l n A).mulVec v (Fin.last l, r)
          = ∑ q : Fin (l + 1) × Fin n,
              Eva.polyeigD l n A (Fin.last l, r) q * v q from rfl,
        Fintype.sum_prod_type]
    rw [h0, Finset.sum_eq_single (Fin.last l)]
    · apply Finset.sum_congr rfl
      intro c _
      simp only [Eva.polyeigD, Matrix.of_apply, if_neg hil]
    · intro j _ hj
      have hjl : (j : ℕ) < l := by
        rcases Nat.lt_succ_iff_lt_or_eq.mp j.isLt with h | h
        · exact h
        · exact absurd (Fin.ext h) hj
      apply Finset.sum_eq_zero
      intro c _
      simp only [Eva.polyeigD, Matrix.of_apply, if_neg hil, if_pos hjl,
        zero_mul]
    · intro h
      exact absurd (Finset.mem_univ _) h
  have hlastrow : ∀ r : Fin n,
      - ∑ j : Fin (l + 1), ∑ c : Fin n, A j.castSucc r c * v (j, c)
        = e * ∑ c : Fin n, A (Fin.last (l + 1)) r c * v (Fin.last l, c) := by
    intro r
    have h1 := congrFun hv (Fin.last l, r)
    rw [hClast r, Pi.smul_apply, smul_eq_mul, hDlast r] at h1
    exact h1
  -- The unscaled truncated vector solves the matrix polynomial.
  have hmain : (∑ i : Fin (l + 2), e ^ (i : ℕ) • A i).mulVec
      (Eva.polyeigTrunc v) = 0 := by
    funext r
    have hrw : ∀ j : Fin (l + 1),
        ∑ c : Fin n, A j.castSucc r c * v (j, c)
          = e ^ (j : ℕ) * (A j.castSucc).mulVec (Eva.polyeigTrunc v) r := by
      intro j
      have hmv : (A j.castSucc).mulVec (Eva.polyeigTrunc v) r
          = ∑ c : Fin n, A j.castSucc r c * v (0, c) := rfl
      rw [hmv, Finset.mul_sum]
      apply Finset.sum_congr rfl
      intro c _
      rw [hblock j c]
      ring
    have hrw2 : ∑ c : Fin n, A (Fin.last (l + 1)) r c * v (Fin.last l, c)
        = e ^ l * (A (Fin.last (l + 1))).mulVec (Eva.polyeigTrunc v) r := by
      have hmv : (A (Fin.last (l + 1))).mulVec (Eva.polyeigTrunc v) r
          = ∑ c : Fin n, A (Fin.last (l + 1)) r c * v (0, c) := rfl
      rw [hmv, Finset.mul_sum]
      apply Finset.sum_congr rfl
      intro c _
      rw [hblock (Fin.last l) c, Fin.val_last]
      ring
    have hfin := hlastrow r
    simp only [hrw, hrw2] at hfin
    have h0 : (∑ i : Fin (l + 2), e ^ (i : ℕ) • A i).mulVec
        (Eva.polyeigTrunc v) r
        = ∑ i : Fin (l + 2),
            e ^ (i : ℕ) * (A i).mulVec (Eva.polyeigTrunc v) r := by
      rw [sum_mulVec_univ, Finset.sum_apply]
      apply Finset.sum_congr rfl
      intro i _
      rw [Matrix.smul_mulVec_assoc, Pi.smul_apply, smul_eq_mul]
    rw [show (0 : Fin n → ℂ) r = 0 from rfl, h0, Fin.sum_univ_castSucc]
    simp only [Fin.coe_castSucc, Fin.val_last]
    linear_combination -hfin
  -- The scaling divides by a scalar, which preserves the kernel.
  have hscale : Eva.polyeigScale (Eva.polyeigTrunc v)
      = ((Eva.polyeigMaxAbs (Eva.polyeigTrunc v) : ℂ))⁻¹ •
          Eva.polyeigTrunc v := by
    funext r
    simp [Eva.polyeigScale, div_eq_inv_mul]
  rw [hscale, Matrix.mulVec_smul, hmain, smul_zero]

/-- **C1, witness.** The degree-1 pencil `A₀ + e·A₁` with `A₀ = [[-2]]`,
`A₁ = [[1]]`: the vector `v = [1]` is a generalized eigenpair of the
companion pair for `e = 2`, and the scaled truncated eigenvector then
solves the matrix polynomial exactly. -/
theorem polyeig_residual_witness :
    ((Eva.polyeigC 0 1 ![!![-2], !![1]]).mulVec (fun _ => 1)
        = (2 : ℂ) • (Eva.polyeigD 0 1 ![!![-2], !![1]]).mulVec (fun _ => 1)) ∧
    (∑ i : Fin 2, (2 : ℂ) ^ (i : ℕ) •
        (![!![-2], !![1]] : Fin 2 → Matrix (Fin 1) (Fin 1) ℂ) i).mulVec
      (Eva.polyeigScale (@Eva.polyeigTrunc 0 1 (fun _ => 1))) = 0 := by
  have hv : (Eva.polyeigC 0 1 ![!![-2], !![1]]).mulVec (fun _ => 1)
      = (2 : ℂ) • (Eva.polyeigD 0 1 ![!![-2], !![1]]).mulVec (fun _ => 1) := by
    funext p
    obtain ⟨p1, p2⟩ := p
    fin_cases p1
    fin_cases p2
    simp [Eva.polyeigC, Eva.polyeigD, Matrix.mulVec, Matrix.dotProduct,
      Fintype.sum_prod_type, Fin.sum_univ_one]
    norm_num [Fin.last, Matrix.cons_val_one, Matrix.head_cons]
  exact ⟨hv, polyeig_residual 0 1 ![!![-2], !![1]] 2 (fun _ => 1) hv⟩

namespace Eva

/-! ### `eig` (`eva.py` lines 75-117)

`eig(K, M, freq_out, sort, normQ)` wraps the dense solver: the raw solver
output `D, Q = linalg.eig(K, M)` (resp. `linalg.eig(K)` when `M is None`)
is passed to the embedding explicitly.  The generalized eigenproblem is
real-symmetric in all uses, so the branch with a mass matrix is modelled
over `ℝ`.  The optional `normQ='byMax'` renormalisation (lines 110-115) is
modelled separately below as `eigNormQ`. -/

/-- Mass-normalisation of the eigenvector columns (lines 90-94):
`Q[:,j] = Q[:,j]/np.sqrt(np.dot(q_j.T,M).dot(q_j))`. -/
noncomputable def massNormalize {n : ℕ} (M Q : Matrix (Fin n) (Fin n) ℝ) :
    Matrix (Fin n) (Fin n) ℝ :=
  Matrix.of fun i j =>
    Q i j /
      Real.sqrt (Matrix.dotProduct (fun r => Q r j) (M.mulVec fun r => Q r j))

/-- The two shapes of the second return value of `eig`: a diagonal
eigenvalue matrix (default) or a frequency vector (`freq_out=True`). -/
inductive LambdaOut (n : ℕ) : Type
  | mat : Matrix (Fin n) (Fin n) ℝ → LambdaOut n
  | freqs : (Fin n → ℝ) → LambdaOut n

/-- The `eig` function (lines 85-107) with the solver oracle output
`(D, Q)` explicit.  With `M` given: mass-normalise, recompute
`Lambda = Qᵀ·K·Q`, take its diagonal, sort by it when `sort` is set
(`I = np.argsort(lambdaDiag)`), and return either frequencies
`sqrt(lambdaDiag)/(2π)` or the diagonal matrix.  Without `M`: the raw
eigenvalues on a diagonal matrix. -/
noncomputable def eig (n : ℕ) (K : Matrix (Fin n) (Fin n) ℝ)
    (M : Option (Matrix (Fin n) (Fin n) ℝ)) (D : Fin n → ℝ)
    (Q : Matrix (Fin n) (Fin n) ℝ) (freq_out sort : Bool) :
    Matrix (Fin n) (Fin n) ℝ × LambdaOut n :=
  match M with
  | some M =>
      let Qn := massNormalize M Q
      let lambdaDiag := Matrix.diag (Qn.transpose * K * Qn)
      let I := Tuple.sort lambdaDiag
      let Qs := if sort then Qn.submatrix id I else Qn
      let lams := if sort then lambdaDiag ∘ I else lambdaDiag
      (Qs,
        if freq_out then LambdaOut.freqs fun j => Real.sqrt (lams j) / (2 * Real.pi)
        else LambdaOut.mat (Matrix.diagonal lams))
  | none => (Q, LambdaOut.mat (Matrix.diagonal D))

/-! ### The two `'byMax'` renormalisation policies (C8)

`eig` (lines 110-115) locates the index of maximum absolute value and
divides by the signed entry there; `eigA` (lines 177-181) divides by the
non-negative maximum absolute value itself. -/

/-- First index of the maximum absolute entry,
`iMax = np.argmax(np.abs(q_j))` (line 113). -/
noncomputable def iMaxAbs {n : ℕ} (q : Fin (n + 1) → ℝ) : Fin (n + 1) :=
  (List.finRange (n + 1)).foldl
    (fun best i => if |q best| < |q i| then i else best) 0

/-- `eig`'s renormalisation (lines 113-115):
`scale = q_j[iMax]` (the signed entry), `Q[:,j] = Q[:,j]/scale`. -/
noncomputable def eigNormQ {n : ℕ} (q : Fin (n + 1) → ℝ) : Fin (n + 1) → ℝ :=
  fun i => q i / q (iMaxAbs q)

/-- Maximum absolute value `np.max(np.abs(q_j))` (line 180). -/
noncomputable def maxAbs {n : ℕ} (q : Fin (n + 1) → ℝ) : ℝ :=
  Finset.univ.sup' Finset.univ_nonempty fun i => |q i|

/-- `eigA`'s renormalisation (lines 179-181): `scale = np.max(np.abs(q_j))`
(non-negative), `Q[:,j] = Q[:,j]/scale`. -/
noncomputable def eigANormQ {n : ℕ} (q : Fin (n + 1) → ℝ) : Fin (n + 1) → ℝ :=
  fun i => q i / maxAbs q

end Eva

/-- Helper: the running argmax fold dominates its seed and every scanned
entry in absolute value. -/
theorem foldl_argmax_le {n : ℕ} (q : Fin (n + 1) → ℝ) :
    ∀ (L : List (Fin (n + 1))) (b : Fin (n + 1)),
      |q b| ≤ |q (L.foldl (fun best i => if |q best| < |q i| then i else best) b)| ∧
      ∀ x ∈ L,
        |q x| ≤ |q (L.foldl (fun best i => if |q best| < |q i| then i else best) b)| := by
  intro L
  induction L with
  | nil =>
    intro b
    exact ⟨le_refl _, by simp⟩
  | cons a t ih =>
    intro b
    have hstep : |q b| ≤ |q (if |q b| < |q a| then a else b)| ∧
        |q a| ≤ |q (if |q b| < |q a| then a else b)| := by
      by_cases h : |q b| < |q a|
      · rw [if_pos h]
        exact ⟨le_of_lt h, le_refl _⟩
      · rw [if_neg h]
        exact ⟨le_refl _, le_of_not_lt h⟩
    have ht := ih (if |q b| < |q a| then a else b)
    rw [List.foldl_cons]
    refine ⟨le_trans hstep.1 ht.1, ?_⟩
    intro x hx
    rcases List.mem_cons.mp hx with h | h
    · subst h
      exact le_trans hstep.2 ht.1
    · exact ht.2 x h

/-- Helper: every entry is dominated by the entry at `iMaxAbs`. -/
theorem abs_le_iMaxAbs {n : ℕ} (q : Fin (n + 1) → ℝ) (i : Fin (n + 1)) :
    |q i| ≤ |q (Eva.iMaxAbs q)| :=
  (foldl_argmax_le q (List.finRange (n + 1)) 0).2 i (List.mem_finRange i)

/-- Helper: the maximum absolute value is attained at `iMaxAbs`. -/
theorem maxAbs_eq_iMaxAbs {n : ℕ} (q : Fin (n + 1) → ℝ) :
    Eva.maxAbs q = |q (Eva.iMaxAbs q)| := by
  apply le_antisymm
  · exact Finset.sup'_le Finset.univ_nonempty (fun i => |q i|)
      fun i _ => abs_le_iMaxAbs q i
  · exact Finset.le_sup' (fun i => |q i|) (Finset.mem_univ (Eva.iMaxAbs q))

/-- **C8.** The two `'byMax'` renormalisation policies differ as specified:
`eig` divides by the signed entry at the index of maximum absolute value,
so that entry becomes exactly `1` and relative signs are preserved, whereas
`eigA` divides by the non-negative maximum absolute value, so the maximum
magnitude becomes `1`, every entry keeps its sign, and a negative maximal
entry maps to `-1` — making the two policies produce different vectors. -/
theorem byMax_policies {n : ℕ} (q : Fin (n + 1) → ℝ)
    (h : q (Eva.iMaxAbs q) ≠ 0) :
    Eva.eigNormQ q (Eva.iMaxAbs q) = 1 ∧
    0 ≤ Eva.maxAbs q ∧
    Eva.maxAbs (Eva.eigANormQ q) = 1 ∧
    (∀ i, 0 ≤ Eva.eigANormQ q i * q i) ∧
    (q (Eva.iMaxAbs q) < 0 →
      Eva.eigANormQ q (Eva.iMaxAbs q) = -1 ∧
        Eva.eigNormQ q ≠ Eva.eigANormQ q) := by
  have hmax : Eva.maxAbs q = |q (Eva.iMaxAbs q)| := maxAbs_eq_iMaxAbs q
  have hpos : 0 < Eva.maxAbs q := by
    rw [hmax]
    exact abs_pos.mpr h
  have h1 : Eva.eigNormQ q (Eva.iMaxAbs q) = 1 := div_self h
  have h3 : Eva.maxAbs (Eva.eigANormQ q) = 1 := by
    have hub : ∀ i : Fin (n + 1), |Eva.eigANormQ q i| ≤ 1 := by
      intro i
      rw [show Eva.eigANormQ q i = q i / Eva.maxAbs q from rfl, abs_div,
        abs_of_pos hpos, div_le_one hpos, hmax]
      exact abs_le_iMaxAbs q i
    have hat : |Eva.eigANormQ q (Eva.iMaxAbs q)| = 1 := by
      rw [show Eva.eigANormQ q (Eva.iMaxAbs q)
          = q (Eva.iMaxAbs q) / Eva.maxAbs q from rfl, abs_div,
        abs_of_pos hpos, hmax, div_self (abs_ne_zero.mpr h)]
    apply le_antisymm
    · exact Finset.sup'_le Finset.univ_nonempty
        (fun i => |Eva.eigANormQ q i|) fun i _ => hub i
    · calc (1 : ℝ) = |Eva.eigANormQ q (Eva.iMaxAbs q)| := hat.symm
        _ ≤ Eva.maxAbs (Eva.eigANormQ q) :=
            Finset.le_sup' (fun i => |Eva.eigANormQ q i|)
              (Finset.mem_univ (Eva.iMaxAbs q))
  refine ⟨h1, hpos.le, h3, ?_, ?_⟩
  · intro i
    rw [show Eva.eigANormQ q i = q i / Eva.maxAbs q from rfl,
      div_mul_eq_mul_div]
    exact div_nonneg (mul_self_nonneg (q i)) hpos.le
  · intro hneg
    have h5 : Eva.eigANormQ q (Eva.iMaxAbs q) = -1 := by
      rw [show Eva.eigANormQ q (Eva.iMaxAbs q)
          = q (Eva.iMaxAbs q) / Eva.maxAbs q from rfl, hmax,
        abs_of_neg hneg, div_neg, div_self h]
    refine ⟨h5, fun heq => ?_⟩
    have := congrFun heq (Eva.iMaxAbs q)
    rw [h1, h5] at this
    norm_num at this

/-- **C8, witness.** The single-entry column `[-3]`: `eig`'s policy yields
`[1]`, `eigA`'s yields `[-1]`. -/
theorem byMax_policies_witness :
    (![(-3 : ℝ)]) (Eva.iMaxAbs ![(-3 : ℝ)]) ≠ 0 ∧
    (Eva.eigNormQ ![(-3 : ℝ)] (Eva.iMaxAbs ![(-3 : ℝ)]) = 1 ∧
     0 ≤ Eva.maxAbs ![(-3 : ℝ)] ∧
     Eva.maxAbs (Eva.eigANormQ ![(-3 : ℝ)]) = 1 ∧
     (∀ i, 0 ≤ Eva.eigANormQ ![(-3 : ℝ)] i * (![(-3 : ℝ)]) i) ∧
     ((![(-3 : ℝ)]) (Eva.iMaxAbs ![(-3 : ℝ)]) < 0 →
       Eva.eigANormQ ![(-3 : ℝ)] (Eva.iMaxAbs ![(-3 : ℝ)]) = -1 ∧
         Eva.eigNormQ ![(-3 : ℝ)] ≠ Eva.eigANormQ ![(-3 : ℝ)])) := by
  have hz : Eva.iMaxAbs ![(-3 : ℝ)] = 0 := Fin.eq_zero _
  have hne : (![(-3 : ℝ)]) (Eva.iMaxAbs ![(-3 : ℝ)]) ≠ 0 := by
    rw [hz]
    norm_num
  exact ⟨hne, byMax_policies ![(-3 : ℝ)] hne⟩

/-- **C10.** When `eig` is called without a mass matrix, both the `sort`
flag and the `freq_out` flag are ignored: for every `K` and every flag
combination the result is the solver's eigenvector matrix unchanged and the
raw eigenvalues of `K` on a diagonal matrix — never sorted and never
converted to frequencies. -/
theorem eig_noM_ignores_flags (n : ℕ) (K : Matrix (Fin n) (Fin n) ℝ)
    (D : Fin n → ℝ) (Q : Matrix (Fin n) (Fin n) ℝ) :
    (∀ freq_out sort : Bool,
        Eva.eig n K none D Q freq_out sort
          = (Q, Eva.LambdaOut.mat (Matrix.diagonal D))) ∧
    (∀ (freq_out sort : Bool) (g : Fin n → ℝ),
        (Eva.eig n K none D Q freq_out sort).2 ≠ Eva.LambdaOut.freqs g) := by
  refine ⟨fun f s => rfl, fun f s g h => ?_⟩
  rw [show (Eva.eig n K none D Q f s).2
      = Eva.LambdaOut.mat (Matrix.diagonal D) from rfl] at h
  exact Eva.LambdaOut.noConfusion h

/-- **C6.** With a mass matrix, `eig` mass-normalises every eigenvector
column: for positive-definite `M` and nonzero solver columns, each
normalised column `x` satisfies `xᵀ·M·x = 1` exactly; and the eigenvalue
matrix returned (here with `sort=False`, `freq_out=False`) carries exactly
the diagonal entries of the recomputed `Qᵀ·K·Q`, off-diagonal leakage
discarded. -/
theorem eig_mass_normalized (n : ℕ) (K M : Matrix (Fin n) (Fin n) ℝ)
    (D : Fin n → ℝ) (Q : Matrix (Fin n) (Fin n) ℝ)
    (hM : M.PosDef) (hQ : ∀ j, (fun r => Q r j) ≠ 0) :
    (∀ j, Matrix.dotProduct (fun r => Eva.massNormalize M Q r j)
        (M.mulVec fun r => Eva.massNormalize M Q r j) = 1) ∧
    Eva.eig n K (some M) D Q false false
      = (Eva.massNormalize M Q,
         Eva.LambdaOut.mat (Matrix.diagonal
           (Matrix.diag ((Eva.massNormalize M Q).transpose * K *
              Eva.massNormalize M Q)))) := by
  constructor
  · intro j
    have hm : 0 < Matrix.dotProduct (fun r => Q r j)
        (M.mulVec fun r => Q r j) := by
      have h0 := hM.2 (fun r => Q r j) (hQ j)
      simpa using h0
    have hcol : (fun r => Eva.massNormalize M Q r j)
        = (Real.sqrt (Matrix.dotProduct (fun r => Q r j)
            (M.mulVec fun r => Q r j)))⁻¹ • (fun r => Q r j) := by
      funext r
      simp [Eva.massNormalize, div_eq_inv_mul]
    rw [hcol, Matrix.smul_dotProduct, Matrix.mulVec_smul,
      Matrix.dotProduct_smul, smul_eq_mul, smul_eq_mul, ← mul_assoc,
      ← mul_inv, Real.mul_self_sqrt hm.le]
    exact inv_mul_cancel₀ (ne_of_gt hm)
  · rfl

/-- **C6, witness.** The 1×1 system `K = [[8]]`, `M = [[4]]` with solver
column `[3]`: the hypotheses hold and the normalised column `[3/sqrt(36)]`
has unit modal mass. -/
theorem eig_mass_normalized_witness :
    (!![(4 : ℝ)]).PosDef ∧
    (∀ j, (fun r => (!![(3 : ℝ)]) r j) ≠ 0) ∧
    ((∀ j, Matrix.dotProduct
        (fun r => Eva.massNormalize !![(4 : ℝ)] !![(3 : ℝ)] r j)
        ((!![(4 : ℝ)]).mulVec
          fun r => Eva.massNormalize !![(4 : ℝ)] !![(3 : ℝ)] r j) = 1) ∧
      Eva.eig 1 !![(8 : ℝ)] (some !![(4 : ℝ)]) ![2] !![(3 : ℝ)] false false
        = (Eva.massNormalize !![(4 : ℝ)] !![(3 : ℝ)],
           Eva.LambdaOut.mat (Matrix.diagonal
             (Matrix.diag
               ((Eva.massNormalize !![(4 : ℝ)] !![(3 : ℝ)]).transpose *
                  !![(8 : ℝ)] *
                  Eva.massNormalize !![(4 : ℝ)] !![(3 : ℝ)]))))) := by
  have hM : (!![(4 : ℝ)]).PosDef := by
    constructor
    · ext i j
      fin_cases i
      fin_cases j
      simp [Matrix.conjTranspose_apply]
    · intro x hx
      have hx0 : x 0 ≠ 0 := by
        intro h0
        apply hx
        funext i
        fin_cases i
        exact h0
      have : Matrix.dotProduct (star x) ((!![(4 : ℝ)]).mulVec x)
          = 4 * (x 0 * x 0) := by
        simp [Matrix.dotProduct, Matrix.mulVec, Fin.sum_univ_one]
        ring
      rw [this]
      have := mul_self_pos.mpr hx0
      nlinarith
  have hQ : ∀ j, (fun r => (!![(3 : ℝ)]) r j) ≠ 0 := by
    intro j hj
    have := congrFun hj 0
    fin_cases j
    norm_num at this
  exact ⟨hM, hQ, eig_mass_normalized 1 !![8] !![4] ![2] !![3] hM hQ⟩

/-! ### A concrete system refuting monotonicity of `freq_0` (C4)

The decoupled mechanical system `M = I`, `C = diag(0, 19/5)`,
`K = diag(1, 4)` has the quadratic-eigenvalue spectrum
`{±i, -19/10 ± i·√39/10}`: an undamped mode with `ω₀ = 1` and a heavily
damped mode (`ζ = 19/20`) with `ω₀ = 2` but *smaller* damped frequency. -/

/-- The damped eigenvalue `-19/10 + i·√39/10` of the second oscillator. -/
noncomputable def cexE2 : ℂ := ⟨-19/10, Real.sqrt 39 / 10⟩

/-- The full eigenvalue/eigenvector list of the counterexample system, as
`polyeig(K, C, M)` would supply it to `eigMCK`. -/
noncomputable def cexEv : List (ℂ × (Fin 2 → ℂ)) :=
  [(Complex.I, ![1, 0]), (-Complex.I, ![1, 0]),
   (cexE2, ![0, 1]), ((starRingEnd ℂ) cexE2, ![0, 1])]

/-- Mass matrix of the counterexample system. -/
noncomputable def cexM : Matrix (Fin 2) (Fin 2) ℂ := 1

/-- Damping matrix of the counterexample system. -/
noncomputable def cexC : Matrix (Fin 2) (Fin 2) ℂ := Matrix.diagonal ![0, 19/5]

/-- Stiffness matrix of the counterexample system. -/
noncomputable def cexK : Matrix (Fin 2) (Fin 2) ℂ := Matrix.diagonal ![1, 4]

/-- **C4, counterexample.** For the mechanical system `M = I`,
`C = diag(0, 19/5)`, `K = diag(1, 4)` the list `cexEv` consists of exact
eigenpairs of the quadratic problem `(M·λ² + C·λ + K)·x = 0` (first
conjunct), yet `eigMCK` with `sort=True` returns the natural-frequency
sequence `[1/π, 1/(2π)]` — strictly decreasing.  Sorting by damped
frequency does not make the recomputed natural frequencies
non-decreasing, refuting the claim as stated. -/
theorem eigMCK_freq0_not_monotone :
    (∀ p ∈ cexEv, (p.1 ^ 2 • cexM + p.1 • cexC + cexK).mulVec p.2 = 0) ∧
    ((Eva.eigMCKPost cexEv true).map fun m => m.2.2.2)
        = [1 / Real.pi, 1 / (2 * Real.pi)] ∧
    ¬ (((Eva.eigMCKPost cexEv true).map fun m => m.2.2.2).Sorted (· ≤ ·)) := by
  have hπ : (0 : ℝ) < Real.pi := Real.pi_pos
  have hs : Real.sqrt 39 ^ 2 = 39 := Real.sq_sqrt (by norm_num)
  have hspos : (0 : ℝ) < Real.sqrt 39 := Real.sqrt_pos.mpr (by norm_num)
  have hs6 : (6 : ℝ) < Real.sqrt 39 := by nlinarith [hs, hspos]
  have hs10 : Real.sqrt 39 < 10 := by nlinarith [hs, hspos]
  -- the eigenpair residuals
  have hquad : cexE2 ^ 2 + (19/5 : ℂ) * cexE2 + 4 = 0 := by
    apply Complex.ext
    · simp [cexE2, pow_two, Complex.mul_re, Complex.mul_im, Complex.add_re]
      nlinarith [hs]
    · simp [cexE2, pow_two, Complex.mul_re, Complex.mul_im, Complex.add_im]
      ring
  have hquad4 : ((starRingEnd ℂ) cexE2) ^ 2 +
      (19/5 : ℂ) * ((starRingEnd ℂ) cexE2) + 4 = 0 := by
    have h := congrArg (starRingEnd ℂ) hquad
    simpa [map_pow, map_mul, map_add, map_div₀, map_ofNat] using h
  have hres : ∀ p ∈ cexEv,
      (p.1 ^ 2 • cexM + p.1 • cexC + cexK).mulVec p.2 = 0 := by
    intro p hp
    fin_cases hp
    · funext r
      fin_cases r
      · simp [cexM, cexC, cexK, Matrix.mulVec, Matrix.dotProduct,
          Fin.sum_univ_two, Matrix.diagonal, Matrix.one_apply, Complex.I_sq]
      · simp [cexM, cexC, cexK, Matrix.mulVec, Matrix.dotProduct,
          Fin.sum_univ_two, Matrix.diagonal, Matrix.one_apply]
    · funext r
      fin_cases r
      · simp [cexM, cexC, cexK, Matrix.mulVec, Matrix.dotProduct,
          Fin.sum_univ_two, Matrix.diagonal, Matrix.one_apply, neg_pow,
          Complex.I_sq]
      · simp [cexM, cexC, cexK, Matrix.mulVec, Matrix.dotProduct,
          Fin.sum_univ_two, Matrix.diagonal, Matrix.one_apply]
    · funext r
      fin_cases r
      · simp [cexM, cexC, cexK, Matrix.mulVec, Matrix.dotProduct,
          Fin.sum_univ_two, Matrix.diagonal, Matrix.one_apply]
      · simp [cexM, cexC, cexK, Matrix.mulVec, Matrix.dotProduct,
          Fin.sum_univ_two, Matrix.diagonal, Matrix.one_apply]
        linear_combination hquad
    · funext r
      fin_cases r
      · simp [cexM, cexC, cexK, Matrix.mulVec, Matrix.dotProduct,
          Fin.sum_univ_two, Matrix.diagonal, Matrix.one_apply]
      · simp [cexM, cexC, cexK, Matrix.mulVec, Matrix.dotProduct,
          Fin.sum_univ_two, Matrix.diagonal, Matrix.one_apply]
        linear_combination hquad4
  -- evaluating the pipeline
  have habs2 : Complex.abs cexE2 = 2 := by
    rw [Complex.abs_apply, Complex.normSq_apply]
    rw [show cexE2.re = -19/10 from rfl,
      show cexE2.im = Real.sqrt 39 / 10 from rfl]
    rw [show (-19/10 : ℝ) * (-19/10) + Real.sqrt 39 / 10 * (Real.sqrt 39 / 10)
        = 2 ^ 2 by nlinarith [hs]]
    exact Real.sqrt_sq (by norm_num)
  have hmap : (cexEv.map fun m =>
      ((m.1.im / (2 * Real.pi) : ℝ), (- m.1.re / Complex.abs m.1 : ℝ), m.2))
      = [(1 / (2 * Real.pi), 0, (![1, 0] : Fin 2 → ℂ)),
         (-1 / (2 * Real.pi), 0, (![1, 0] : Fin 2 → ℂ)),
         (Real.sqrt 39 / 10 / (2 * Real.pi), 19 / 20, (![0, 1] : Fin 2 → ℂ)),
         (-(Real.sqrt 39 / 10) / (2 * Real.pi), 19 / 20,
            (![0, 1] : Fin 2 → ℂ))] := by
    simp only [cexEv, List.map_cons, List.map_nil, Complex.I_im, Complex.I_re,
      Complex.neg_im, Complex.neg_re, Complex.conj_im, Complex.conj_re,
      map_neg, Complex.abs_I, Complex.abs_conj, habs2, neg_zero, neg_neg]
    rw [show cexE2.im = Real.sqrt 39 / 10 from rfl,
      show cexE2.re = (-19/10 : ℝ) from rfl]
    norm_num
  have hf1 : ((1e-8 : ℝ) < 1 / (2 * Real.pi)) := by
    rw [lt_div_iff (by positivity)]
    nlinarith [Real.pi_lt_315]
  have hf2 : ¬ ((1e-8 : ℝ) < -1 / (2 * Real.pi)) := by
    push_neg
    have hneg : (-1 : ℝ) / (2 * Real.pi) < 0 := by
      apply div_neg_of_neg_of_pos
      · norm_num
      · positivity
    linarith
  have hf3 : ((1e-8 : ℝ) < Real.sqrt 39 / 10 / (2 * Real.pi)) := by
    rw [div_div, lt_div_iff (by positivity)]
    nlinarith [Real.pi_lt_315, hs6]
  have hf4 : ¬ ((1e-8 : ℝ) < -(Real.sqrt 39 / 10) / (2 * Real.pi)) := by
    push_neg
    have hneg : -(Real.sqrt 39 / 10) / (2 * Real.pi) < 0 := by
      apply div_neg_of_neg_of_pos
      · exact neg_lt_zero.mpr (by positivity)
      · positivity
    linarith
  have hfilter : (([(1 / (2 * Real.pi), (0 : ℝ), (![1, 0] : Fin 2 → ℂ)),
      (-1 / (2 * Real.pi), 0, (![1, 0] : Fin 2 → ℂ)),
      (Real.sqrt 39 / 10 / (2 * Real.pi), 19 / 20, (![0, 1] : Fin 2 → ℂ)),
      (-(Real.sqrt 39 / 10) / (2 * Real.pi), 19 / 20,
        (![0, 1] : Fin 2 → ℂ))]).filter fun m => decide ((1e-8 : ℝ) < m.1))
      = [(1 / (2 * Real.pi), 0, ![1, 0]),
         (Real.sqrt 39 / 10 / (2 * Real.pi), 19 / 20, ![0, 1])] := by
    simp only [List.filter_cons, List.filter_nil]
    rw [if_pos (by simpa using hf1), if_neg (by simpa using hf2),
      if_pos (by simpa using hf3), if_neg (by simpa using hf4)]
  have hle : ¬ ((1 / (2 * Real.pi) : ℝ) ≤ Real.sqrt 39 / 10 / (2 * Real.pi)) := by
    push_neg
    rw [div_lt_div_right (by positivity : (0 : ℝ) < 2 * Real.pi)]
    linarith [hs10]
  have hsort : (([(1 / (2 * Real.pi), (0 : ℝ), (![1, 0] : Fin 2 → ℂ)),
      (Real.sqrt 39 / 10 / (2 * Real.pi), 19 / 20,
        (![0, 1] : Fin 2 → ℂ))]).insertionSort fun a b => a.1 ≤ b.1)
      = [(Real.sqrt 39 / 10 / (2 * Real.pi), 19 / 20, ![0, 1]),
         (1 / (2 * Real.pi), 0, ![1, 0])] := by
    simp only [List.insertionSort, List.orderedInsert]
    rw [if_neg hle]
  have hsqz : Real.sqrt (1 - (19 / 20 : ℝ) ^ 2) = Real.sqrt 39 / 20 := by
    rw [show (1 - (19 / 20 : ℝ) ^ 2) = (Real.sqrt 39 / 20) ^ 2 by
      rw [div_pow, div_pow, hs]
      norm_num]
    exact Real.sqrt_sq (by positivity)
  have hpi : Real.pi ≠ 0 := ne_of_gt hπ
  have hsne : Real.sqrt 39 ≠ 0 := ne_of_gt hspos
  have hg3 : (Real.sqrt 39 / 10 / (2 * Real.pi)) /
      Real.sqrt (1 - (19 / 20 : ℝ) ^ 2) = 1 / Real.pi := by
    rw [hsqz]
    field_simp
    ring
  have hg1 : (1 / (2 * Real.pi) : ℝ) / Real.sqrt (1 - (0 : ℝ) ^ 2)
      = 1 / (2 * Real.pi) := by
    norm_num
  have hfreq : ((Eva.eigMCKPost cexEv true).map fun m => m.2.2.2)
      = [1 / Real.pi, 1 / (2 * Real.pi)] := by
    rw [Eva.eigMCKPost]
    simp only [if_true]
    rw [hmap, hfilter, hsort]
    simp only [List.map_cons, List.map_nil]
    rw [hg3, hg1]
  refine ⟨hres, hfreq, ?_⟩
  rw [hfreq]
  intro hsorted
  have h12 : (1 / Real.pi : ℝ) ≤ 1 / (2 * Real.pi) :=
    (List.sorted_cons.mp hsorted).1 _ (List.mem_cons_self _ _)
  have hlt : (1 / (2 * Real.pi) : ℝ) < 1 / Real.pi := by
    apply one_div_lt_one_div_of_lt hπ
    linarith
  linarith
